import Mathlib

/-!
Shallow embedding of `conflict-vetter.py`: a batch tool that reads HotCRP
exports (pcinfo, authors, pcconflicts), filters declared reviewer-author
conflicts, obscures paper ids with bcrypt, writes an audit mapping file
`uidmap.csv`, and composes one message per reviewer (sent only when the
`--really-send` flag is given).

Strings are modelled as Lean `String` (a structure over `List Char`), and
the Python string operations used by the script (`split`, slicing, `lower`,
`[:-1]`, `str()` of bytes) are given explicit structural definitions below
so that everything evaluates by `decide` / `rfl`.
-/

namespace ConflictVetter

/-- Python `s.split(c)` for a single-character separator: split at every
occurrence of the separator, keeping empty segments (so `"".split` is
`[""]` and `"a@@b".split("@")` is `["a","","b"]`). -/
def splitOnChar (c : Char) : List Char → List (List Char)
  | [] => [[]]
  | x :: xs =>
    if x = c then [] :: splitOnChar c xs
    else
      match splitOnChar c xs with
      | [] => [[x]]
      | h :: t => (x :: h) :: t

/-- Python `s.split(c)` on `String`. -/
def pySplit (c : Char) (s : String) : List String :=
  (splitOnChar c s.data).map List.asString

/-- Python `s[:-1]`: drop the final character (empty string unchanged). -/
def pyDropLast (s : String) : String :=
  s.data.dropLast.asString

/-- Python `s.lower()` (ASCII case folding, as applies to email strings). -/
def pyLower (s : String) : String :=
  (s.data.map Char.toLower).asString

/-- One row of the `confname-pcconflicts.csv` export:
columns `email`, `paper`, `conflicttype`. -/
structure ConflictRow where
  email : String
  paper : String
  conflicttype : String
deriving DecidableEq, Repr

/-- One row of the `confname-authors.csv` export:
columns `paper`, `first`, `last`, `email`. -/
structure AuthorRow where
  paper : String
  first : String
  last : String
  email : String
deriving DecidableEq, Repr

/-- One row of the `confname-pcinfo.csv` export:
columns `email`, `first`, `last`. -/
structure PcInfoRow where
  email : String
  first : String
  last : String
deriving DecidableEq, Repr

/-- `value = row["first"] + " " + row["last"] + " <" + row["email"] + ">"`
(line 92 of the script). -/
def authorString (r : AuthorRow) : String :=
  r.first ++ " " ++ r.last ++ " <" ++ r.email ++ ">"

/-- `allAuthors[paper]`: the list of author descriptor strings appended in
row order for the given paper (lines 86-93). -/
def allAuthors (rows : List AuthorRow) (paper : String) : List String :=
  (rows.filter (fun r => r.paper = paper)).map authorString

/-- `recipient_domain = row["email"].split("@")[1]` (line 108); `none`
models the uncaught `IndexError` when the email has no `@`. -/
def recipientDomain (email : String) : Option String :=
  (pySplit (Char.ofNat 64) email).get? 1

/-- `name.split("<")[1].split("@")[1][:-1]` (line 116); `none` models the
`IndexError` raised on a malformed author string. -/
def authorDomain (a : String) : Option String :=
  ((pySplit (Char.ofNat 60) a).get? 1).bind fun t =>
    ((pySplit (Char.ofNat 64) t).get? 1).map pyDropLast

/-- The closed set of conflict types that are kept (line 109). -/
def keptTypes : List String := ["Pinned conflict", "Personal", "Other"]

/-- The public-webmail allow-list (line 111). -/
def webmail : List String := ["outlook.com", "yahoo.com", "gmail.com"]

/-- `list(map(lambda name: name.split("<")[1].split("@")[1][:-1], alist))`
inside the `try` block: `none` iff any author string raises. -/
def tryDomains : List String → Option (List String)
  | [] => some []
  | a :: rest =>
    match authorDomain a with
    | none => none
    | some d => (tryDomains rest).map (fun ds => d :: ds)

/-- The `try ... except: pass` around the domain-membership test
(lines 114-120): suppress only when the whole `list(map(...))` succeeds
and the recipient domain is a member; any exception means no suppression. -/
def suppressedByDomain (rd : String) (alist : List String) : Bool :=
  match tryDomains alist with
  | none => false
  | some ds => ds.contains rd

/-- A conflict record surviving the filter: reviewer email, paper id, the
deduplicated author-list snapshot, and the conflict type. -/
structure Surv where
  email : String
  paper : String
  alist : List String
  ctype : String
deriving DecidableEq, Repr

/-- Outcome of processing one pcconflicts row. -/
inductive RowResult where
  | crash
  | dropped
  | kept (s : Surv)
deriving DecidableEq, Repr

/-- The body of the pcconflicts loop (lines 105-122) for one row:
`alist = list(set(allAuthors[paper]))` (modelled by `dedup`, which
preserves membership), then the recipient-domain extraction (whose
`IndexError` is uncaught: `crash`), then the conflict-type check, then the
webmail allow-list, then the guarded institutional-domain suppression. -/
def filterRow (authors : String → List String) (row : ConflictRow) : RowResult :=
  let alist := (authors row.paper).dedup
  match recipientDomain row.email with
  | none => .crash
  | some rd =>
    if row.conflicttype ∈ keptTypes then
      if rd ∈ webmail then .kept ⟨row.email, row.paper, alist, row.conflicttype⟩
      else if suppressedByDomain rd alist then .dropped
      else .kept ⟨row.email, row.paper, alist, row.conflicttype⟩
    else .dropped

/-- Processing the whole pcconflicts export in row order; `none` models the
run aborting on an uncaught exception. -/
def survivors (authors : String → List String) : List ConflictRow → Option (List Surv)
  | [] => some []
  | r :: rs =>
    match filterRow authors r with
    | .crash => none
    | .dropped => survivors authors rs
    | .kept s => (survivors authors rs).map (fun l => s :: l)

/-- `conflicts[r]` restricted to the surviving records of reviewer `r`,
in row order (the per-reviewer group before the shuffle). -/
def conflictsOf (survs : List Surv) (r : String) : List Surv :=
  survs.filter (fun s => s.email == r)

/-- The `(paper, alist)` pairs appended to `conflicts[r]` (line 121). -/
def pairsOf (survs : List Surv) (r : String) : List (String × List String) :=
  (conflictsOf survs r).map (fun s => (s.paper, s.alist))

/-- `conflict_types[r][p]` (line 122, last write wins; `defaultdict(str)`
default is the empty string). -/
def ctypeOf (survs : List Surv) (r p : String) : String :=
  match (survs.filter (fun s => s.email == r && s.paper == p)).getLast? with
  | some s => s.ctype
  | none => ""

/-- The set of reviewers with at least one surviving conflict:
`conflicts.keys()`. -/
def reviewerKeys (survs : List Surv) : List String :=
  (survs.map Surv.email).dedup

/-- `s = sorted(conflicts.keys())` (line 148). -/
def sortedRecipients (survs : List Surv) : List String :=
  (reviewerKeys survs).insertionSort (fun a b => a ≤ b)

/-- The command-line configuration the message loop reads. -/
structure Config where
  hashcode : String
  yourName : String
  yourEmail : String
  formUrl : String
  reallySend : Bool

/-- `senderName = args.your_name + " <" + args.your_email + ">"` (line 70). -/
def senderName (cfg : Config) : String :=
  cfg.yourName ++ " <" ++ cfg.yourEmail ++ ">"

/-- `names` dict built from the pcinfo export (lines 74-80): key is the
lowercased email, value `first + " " + last`, in row order. -/
def buildNames (rows : List PcInfoRow) : List (String × String) :=
  rows.map (fun r => (pyLower r.email, r.first ++ " " ++ r.last))

/-- Python dict lookup with insertion-overwrite semantics: the last
binding of a key wins. -/
def dictLookup (l : List (String × String)) (k : String) : Option String :=
  l.reverse.lookup k

/-- The subject-line personalisation (lines 154-157): the display name if
`recipient.lower()` is a key of `names`, otherwise the raw email. -/
def greeting (names : List (String × String)) (recipient : String) : String :=
  match dictLookup names (pyLower recipient) with
  | some n => n
  | none => recipient

/-- The ASCII apostrophe. -/
def quoteChar : Char := Char.ofNat 39

/-- Python `str(uid)` where `uid : bytes` holds printable ASCII (as bcrypt
output does): the representation is `b` + quote + contents + quote. -/
def pyStrBytes (s : String) : List Char :=
  'b' :: quoteChar :: (s.data ++ [quoteChar])

/-- `reduced_uid = str(uid)[9:21]` (line 172). -/
def reducedUid (uid : String) : String :=
  (((pyStrBytes uid).take 21).drop 9).asString

/-- `bcrypt.hashpw(key, salt)`: the encoded output is the 29-character
encoded salt followed by the encoded hash. The hash body is an arbitrary
deterministic function `f` of key and salt, left as a parameter. -/
def hashpw (f : String → String → String) (key salt : String) : String :=
  salt ++ f key salt

/-- One obfuscation step (lines 170-172): `key = recipient + hashcode +
paper`, hash it with the given salt, take `str(...)[9:21]`. -/
def obfuscate (f : String → String → String)
    (recipient hashcode paper salt : String) : String :=
  reducedUid (hashpw f (recipient ++ hashcode ++ paper) salt)

/-- Characters 7 through 18 of the encoded salt: exactly the region of the
bcrypt output that `str(uid)[9:21]` lands on (after the `b` and quote of
the bytes repr). -/
def saltWindow (s : String) : List Char :=
  (s.data.take 19).drop 7

/-- The relabelling of one conflict type at render time (lines 176-177). -/
def relabel (ctype : String) : String :=
  if ctype = "Pinned conflict" then "Auto-detected conflict (probably institutional)"
  else ctype

/-- One numbered conflict line of the message (lines 174-185): index,
token, (relabelled) conflict type, comma-joined author list. -/
def conflictLine (cfg : Config) (f : String → String → String) (salts : Nat → String)
    (recipient ct : String) (n ind : Nat) (p : String) (l : List String) : String :=
  toString ind ++ ". " ++ "(UID = " ++ obfuscate f recipient cfg.hashcode p (salts n) ++
    ") - " ++ relabel ct ++ " : " ++ String.intercalate ", " l ++ "\n"

/-- The inner loop of the message body (lines 168-186): one line per
conflict, with the salt counter `n` and the 1-based index `ind` advancing
together. -/
def linesFor (cfg : Config) (f : String → String → String) (salts : Nat → String)
    (recipient : String) (ct : String → String) :
    Nat → Nat → List (String × List String) → String
  | _, _, [] => ""
  | n, ind, (p, l) :: rest =>
    conflictLine cfg f salts recipient (ct p) n ind p l ++
      linesFor cfg f salts recipient ct (n + 1) (ind + 1) rest

/-- The fixed instructional preamble (lines 159-163). -/
def preamble (cfg : Config) : String :=
  "This mail contains a list of all papers for which you have been marked\nas a conflict. The actual paper numbers have been encrypted.\n\nPlease check each author list to verify that at least one of the authors for\neach paper looks like a legitimate conflict. IF NOT, please enter each one on this form:\n\n  "
    ++ cfg.formUrl ++ ".\n\n"

/-- The full message composed for one recipient (lines 153-187), with the
conflict list `c` as shuffled and the salt counter starting at `n`. -/
def msgFor (cfg : Config) (f : String → String → String) (salts : Nat → String)
    (names : List (String × String)) (ct : String → String)
    (recipient : String) (n : Nat) (c : List (String × List String)) : String :=
  "From: " ++ senderName cfg ++ "\nSubject: Conflicts to vet: " ++
    greeting names recipient ++ "\n\nHi,\n\n" ++ preamble cfg ++
    linesFor cfg f salts recipient ct n 1 c ++
    "\n\nThanks,\n" ++ cfg.yourName ++ "\n"

/-- Observable events of the run, in program order: a row written to
`uidmap.csv`, a message handed to `server.sendmail`, or a message printed
to the console. -/
inductive Event where
  | auditWrite (email paper uid : String)
  | send (recipient msg : String)
  | print (recipient msg : String)
deriving DecidableEq, Repr

/-- The audit rows written while rendering recipient `r`'s conflict list
(line 173): one row per conflict, in loop order, before the message event. -/
def auditFor (cfg : Config) (f : String → String → String) (salts : Nat → String)
    (r : String) : Nat → List (String × List String) → List Event
  | _, [] => []
  | n, (p, _) :: rest =>
    Event.auditWrite r p (obfuscate f r cfg.hashcode p (salts n)) ::
      auditFor cfg f salts r (n + 1) rest

/-- The send-or-print branch (lines 189-195). -/
def msgEvent (cfg : Config) (r m : String) : Event :=
  if cfg.reallySend then Event.send r m else Event.print r m

/-- The recipient loop (lines 150-195): for each recipient in order, all
audit rows are written, then the composed message is sent or printed; the
salt counter threads through. -/
def notifyAll (cfg : Config) (f : String → String → String) (salts : Nat → String)
    (names : List (String × String)) (ct : String → String → String)
    (shuffled : String → List (String × List String)) :
    List String → Nat → List Event
  | [], _ => []
  | r :: rs, n =>
    auditFor cfg f salts r n (shuffled r) ++
      msgEvent cfg r (msgFor cfg f salts names (ct r) r n (shuffled r)) ::
      notifyAll cfg f salts names ct shuffled rs (n + (shuffled r).length)

/-- The whole run: load the three exports, filter, then notify in sorted
recipient order. `shuffled` supplies the per-reviewer `random.shuffle`
result (constrained to a permutation in the theorems). `none` models the
run aborting on an uncaught exception during filtering. -/
def runTrace (cfg : Config) (f : String → String → String) (salts : Nat → String)
    (pcrows : List PcInfoRow) (arows : List AuthorRow) (crows : List ConflictRow)
    (shuffled : String → List (String × List String)) : Option (List Event) :=
  (survivors (allAuthors arows) crows).map fun survs =>
    notifyAll cfg f salts (buildNames pcrows) (ctypeOf survs) shuffled
      (sortedRecipients survs) 0

/-- The `uidmap.csv` row for an audit event (line 173). -/
def auditLine : Event → Option String
  | .auditWrite r p u => some (r ++ "," ++ p ++ "," ++ u)
  | _ => none

/-- The contents of `uidmap.csv` after a run, as a list of lines. The file
is opened with mode `"w"` (line 139), which truncates: `prevContents`, the
contents left by previous runs, is discarded; then the header and one row
per audit event are written in order. -/
def runAuditFile (_prevContents : List String) (trace : List Event) : List String :=
  "email,paper,uid" :: trace.filterMap auditLine

/-- Does this event write an audit row for reviewer `r` and paper `p`? -/
def isAuditRow (r p : String) : Event → Bool
  | .auditWrite e q _ => e == r && q == p
  | _ => false

/-- Is this event the message event (send or print) of recipient `r`? -/
def isMsgFor (r : String) : Event → Bool
  | .send e _ => e == r
  | .print e _ => e == r
  | _ => false

/-- Is this event a transmission (`server.sendmail`)? -/
def isSendEvent : Event → Bool
  | .send _ _ => true
  | _ => false

/-- Is this event an audit-row write? -/
def isAuditEvent : Event → Bool
  | .auditWrite _ _ _ => true
  | _ => false

/-- The reviewer email an event concerns. -/
def eventEmail : Event → String
  | .auditWrite e _ _ => e
  | .send e _ => e
  | .print e _ => e

/-- The recipients of the message events of a trace, in order. -/
def recipientsOf (trace : List Event) : List String :=
  trace.filterMap fun e =>
    match e with
    | .send r _ => some r
    | .print r _ => some r
    | _ => none

/-- The papers of the audit rows written for reviewer `r`, in order. -/
def auditRecordsOf (trace : List Event) (r : String) : List String :=
  trace.filterMap fun e =>
    match e with
    | .auditWrite e2 p _ => if e2 == r then some p else none
    | _ => none

/-! ## Concrete fixtures used to instantiate the theorems on closed inputs -/

/-- A dry-run configuration. -/
def sampleConfig : Config := ⟨"sec", "N", "n@x.com", "u", false⟩

/-- An arbitrary deterministic stand-in for the bcrypt hash body. -/
def sampleHash : String → String → String := fun _ _ => "HASHBODY"

/-- A constant supply of well-formed 29-character bcrypt salts. -/
def sampleSalts : Nat → String := fun _ => "$2b$12$AAAAAAAAAAAAAAAAAAAAAA"

/-- A one-row authors export: paper `12` by `b@corp.com`. -/
def sampleAuthors : List AuthorRow := [⟨"12", "B", "C", "b@corp.com"⟩]

/-- A one-row conflicts export: reviewer `a@u.edu` on paper `12`. -/
def sampleConflicts : List ConflictRow := [⟨"a@u.edu", "12", "Personal"⟩]

/-- The surviving record the sample inputs produce. -/
def sampleSurv : Surv := ⟨"a@u.edu", "12", ["B C <b@corp.com>"], "Personal"⟩

/-- A shuffle result for the sample run (identity on the only reviewer). -/
def sampleShuffle : String → List (String × List String) :=
  fun r => if r = "a@u.edu" then [("12", ["B C <b@corp.com>"])] else []

/-! ## Lemmas about the domain-matching `try` block -/

theorem tryDomains_eq_none_of_mem {l : List String} {a : String}
    (ha : a ∈ l) (h : authorDomain a = none) : tryDomains l = none := by
  induction l with
  | nil => cases ha
  | cons b rest ih =>
    rcases List.mem_cons.mp ha with rfl | hmem
    · simp [tryDomains, h]
    · cases hb : authorDomain b <;> simp [tryDomains, hb, ih hmem]

theorem tryDomains_eq_some {l : List String}
    (h : ∀ a ∈ l, (authorDomain a).isSome) :
    ∃ ds, tryDomains l = some ds ∧
      ∀ rd, rd ∈ ds ↔ ∃ a ∈ l, authorDomain a = some rd := by
  induction l with
  | nil => exact ⟨[], rfl, by simp⟩
  | cons b rest ih =>
    obtain ⟨d, hd⟩ := Option.isSome_iff_exists.mp (h b (List.mem_cons_self b rest))
    obtain ⟨ds, hds, hiff⟩ := ih (fun a ha => h a (List.mem_cons_of_mem _ ha))
    refine ⟨d :: ds, by simp [tryDomains, hd, hds], fun rd => ?_⟩
    constructor
    · intro hrd
      rcases List.mem_cons.mp hrd with rfl | hrd2
      · exact ⟨b, List.mem_cons_self b rest, hd⟩
      · obtain ⟨a, ha, hda⟩ := (hiff rd).mp hrd2
        exact ⟨a, List.mem_cons_of_mem _ ha, hda⟩
    · rintro ⟨a, ha, hda⟩
      rcases List.mem_cons.mp ha with rfl | ha2
      · rw [hd] at hda
        exact List.mem_cons.mpr (Or.inl (Option.some.inj hda).symm)
      · exact List.mem_cons.mpr (Or.inr ((hiff rd).mpr ⟨a, ha2, hda⟩))

theorem suppressedByDomain_false_of_malformed {rd : String} {l : List String}
    (h : ∃ a ∈ l, authorDomain a = none) : suppressedByDomain rd l = false := by
  obtain ⟨a, ha, hn⟩ := h
  simp [suppressedByDomain, tryDomains_eq_none_of_mem ha hn]

theorem suppressedByDomain_iff {rd : String} {l : List String}
    (h : ∀ a ∈ l, (authorDomain a).isSome) :
    suppressedByDomain rd l = true ↔ ∃ a ∈ l, authorDomain a = some rd := by
  obtain ⟨ds, hds, hiff⟩ := tryDomains_eq_some h
  rw [suppressedByDomain, hds]
  simpa [List.elem_iff] using hiff rd

/-- C2: for a conflict row of a kept type whose reviewer email yields a
domain: if that domain is in the fixed public-webmail allow-list the
conflict is always kept; otherwise (with every author string of the paper
yielding a domain) the conflict is dropped exactly when some author's
domain equals the reviewer's, and kept when no author's domain does. -/
theorem c2_webmail_and_domain_policy (authors : String → List String)
    (row : ConflictRow) (rd : String)
    (hd : recipientDomain row.email = some rd)
    (hk : row.conflicttype ∈ keptTypes) :
    (rd ∈ webmail →
      filterRow authors row =
        RowResult.kept ⟨row.email, row.paper, (authors row.paper).dedup, row.conflicttype⟩)
    ∧ (rd ∉ webmail →
        (∀ a ∈ (authors row.paper).dedup, (authorDomain a).isSome) →
        ((∃ a ∈ (authors row.paper).dedup, authorDomain a = some rd) →
            filterRow authors row = RowResult.dropped)
        ∧ ((∀ a ∈ (authors row.paper).dedup, authorDomain a ≠ some rd) →
            filterRow authors row =
              RowResult.kept
                ⟨row.email, row.paper, (authors row.paper).dedup, row.conflicttype⟩)) := by
  constructor
  · intro hweb
    simp only [filterRow, hd, if_pos hk, if_pos hweb]
  · intro hweb hwf
    constructor
    · intro hmatch
      have hsup : suppressedByDomain rd ((authors row.paper).dedup) = true :=
        (suppressedByDomain_iff hwf).mpr hmatch
      simp only [filterRow, hd, if_pos hk, if_neg hweb, hsup, if_pos]
    · intro hnomatch
      have hsup : suppressedByDomain rd ((authors row.paper).dedup) = false := by
        rw [Bool.eq_false_iff]
        intro hc
        obtain ⟨a, ha, hda⟩ := (suppressedByDomain_iff hwf).mp hc
        exact hnomatch a ha hda
      simp only [filterRow, hd, if_pos hk, if_neg hweb, hsup, if_neg, Bool.false_eq_true,
        not_false_iff]

/-- C2 witness: reviewer `a@gmail.com`, paper `12`, sole author
`b@gmail.com`: the shared domain is in the webmail allow-list, so the
conflict is kept. -/
theorem c2_webmail_and_domain_policy_witness :
    filterRow (fun p => if p = "12" then ["B C <b@gmail.com>"] else [])
        ⟨"a@gmail.com", "12", "Personal"⟩ =
      RowResult.kept ⟨"a@gmail.com", "12", ["B C <b@gmail.com>"], "Personal"⟩ :=
  (c2_webmail_and_domain_policy (fun p => if p = "12" then ["B C <b@gmail.com>"] else [])
    ⟨"a@gmail.com", "12", "Personal"⟩ "gmail.com" (by decide) (by decide)).1 (by decide)

/-- C4 counterexample: paper `12` has one malformed author string `"x"`
and one well-formed author `b@u.edu` whose domain equals the reviewer's
(non-webmail) domain `u.edu`. The claim says the conflict is still
suppressed; the code keeps it, because the exception raised while mapping
over the whole author list aborts the entire membership test. -/
theorem c4_counterexample :
    filterRow (fun p => if p = "12" then ["x", "B C <b@u.edu>"] else [])
        ⟨"a@u.edu", "12", "Personal"⟩ =
      RowResult.kept ⟨"a@u.edu", "12", ["x", "B C <b@u.edu>"], "Personal"⟩
    ∧ recipientDomain "a@u.edu" = some "u.edu"
    ∧ authorDomain "B C <b@u.edu>" = some "u.edu"
    ∧ authorDomain "x" = none
    ∧ "u.edu" ∉ webmail := by decide

/-- C4 (amended): an error extracting a domain from ANY author string
aborts the domain-membership test for the whole paper, fail-open: the
conflict is kept even when another well-formed author's domain equals the
reviewer's non-webmail domain. -/
theorem c4_amended_failopen_whole_list (authors : String → List String)
    (row : ConflictRow) (rd : String)
    (hd : recipientDomain row.email = some rd)
    (hk : row.conflicttype ∈ keptTypes)
    (hw : rd ∉ webmail)
    (hmal : ∃ a ∈ (authors row.paper).dedup, authorDomain a = none) :
    filterRow authors row =
      RowResult.kept ⟨row.email, row.paper, (authors row.paper).dedup, row.conflicttype⟩ := by
  have hsup : suppressedByDomain rd ((authors row.paper).dedup) = false :=
    suppressedByDomain_false_of_malformed hmal
  simp only [filterRow, hd, if_pos hk, if_neg hw, hsup, if_neg, Bool.false_eq_true,
    not_false_iff]

/-- C4 amended witness: the counterexample input, kept by the code even
though `b@u.edu` matches the reviewer's domain `u.edu`. -/
theorem c4_amended_failopen_whole_list_witness :
    filterRow (fun p => if p = "12" then ["x", "B C <b@u.edu>"] else [])
        ⟨"a@u.edu", "12", "Personal"⟩ =
      RowResult.kept ⟨"a@u.edu", "12", ["x", "B C <b@u.edu>"], "Personal"⟩ :=
  c4_amended_failopen_whole_list
    (fun p => if p = "12" then ["x", "B C <b@u.edu>"] else [])
    ⟨"a@u.edu", "12", "Personal"⟩ "u.edu" (by decide) (by decide) (by decide)
    ⟨"x", by decide, by decide⟩

/-! ## Lemmas about the token derivation -/

theorem take21_drop9 (x y : Char) (l : List Char) :
    ((x :: y :: l).take 21).drop 9 = (l.take 19).drop 7 := rfl

/-- `str(uid)[9:21]` lands entirely inside the 29-character encoded salt:
the token is exactly characters 7-18 of the salt, whatever the hash body. -/
theorem obfuscate_eq_saltWindow (f : String → String → String)
    (r hc p salt : String) (hs : 19 ≤ salt.length) :
    obfuscate f r hc p salt = (saltWindow salt).asString := by
  unfold obfuscate reducedUid hashpw pyStrBytes saltWindow
  apply congrArg List.asString
  have hdata : (salt ++ f (r ++ hc ++ p) salt).data
      = salt.data ++ (f (r ++ hc ++ p) salt).data := rfl
  rw [hdata, List.append_assoc, take21_drop9, List.take_append_of_le_length hs]

/-- C6: the displayed token is `str(uid)[9:21]`, which falls inside the
encoded random salt of the bcrypt output; hence, for a fixed salt, the
token is the same for every (reviewer email, paper id, secret) triple —
it carries no information derived from reviewer, paper, or secret. -/
theorem c6_token_depends_only_on_salt (f : String → String → String)
    (salt : String) (hs : salt.length = 29)
    (r1 hc1 p1 r2 hc2 p2 : String) :
    obfuscate f r1 hc1 p1 salt = (saltWindow salt).asString
    ∧ obfuscate f r1 hc1 p1 salt = obfuscate f r2 hc2 p2 salt := by
  have h19 : 19 ≤ salt.length := by omega
  refine ⟨obfuscate_eq_saltWindow f r1 hc1 p1 salt h19, ?_⟩
  rw [obfuscate_eq_saltWindow f r1 hc1 p1 salt h19,
    obfuscate_eq_saltWindow f r2 hc2 p2 salt h19]

/-- C6 witness: at a concrete 29-character salt, two entirely different
(reviewer, secret, paper) triples get the same token. -/
theorem c6_token_depends_only_on_salt_witness :
    obfuscate (fun _ _ => "HASHBODY") "a@x.com" "sec" "7" "$2b$12$ABCDEFGHIJKLMNOPQRSTUV"
      = obfuscate (fun _ _ => "HASHBODY") "b@y.org" "tes" "8" "$2b$12$ABCDEFGHIJKLMNOPQRSTUV" :=
  (c6_token_depends_only_on_salt (fun _ _ => "HASHBODY") "$2b$12$ABCDEFGHIJKLMNOPQRSTUV"
    (by decide) "a@x.com" "sec" "7" "b@y.org" "tes" "8").2

/-- C7 counterexample: two distinct fresh salts that agree on characters
7-18 produce the SAME token for the same (reviewer, paper, secret) input,
so "two distinct salts yield two different tokens" is false as stated. -/
theorem c7_counterexample :
    ("$2b$12$AAAAAAAAAAAAAAAAAAAAAA" : String) ≠ "$2b$12$AAAAAAAAAAAAAAAAAAAAAB"
    ∧ ("$2b$12$AAAAAAAAAAAAAAAAAAAAAA" : String).length = 29
    ∧ ("$2b$12$AAAAAAAAAAAAAAAAAAAAAB" : String).length = 29
    ∧ obfuscate (fun _ _ => "HASHBODY") "a@x.com" "sec" "7" "$2b$12$AAAAAAAAAAAAAAAAAAAAAA"
      = obfuscate (fun _ _ => "HASHBODY") "a@x.com" "sec" "7" "$2b$12$AAAAAAAAAAAAAAAAAAAAAB" := by
  decide

/-- C7 (amended): obfuscating the same (reviewer, paper, secret) input
twice writes BOTH resulting tokens to the audit file, one row per step in
order; the two tokens differ if and only if the two fresh salts differ
somewhere in characters 7-18 of the encoded salt (the window the token is
cut from) — distinct salts alone do not guarantee distinct tokens. -/
theorem c7_amended_window_difference (cfg : Config) (f : String → String → String)
    (salts : Nat → String) (r p : String) (alist : List String) (n : Nat)
    (h0 : (salts n).length = 29) (h1 : (salts (n + 1)).length = 29) :
    auditFor cfg f salts r n [(p, alist), (p, alist)] =
      [Event.auditWrite r p (obfuscate f r cfg.hashcode p (salts n)),
       Event.auditWrite r p (obfuscate f r cfg.hashcode p (salts (n + 1)))]
    ∧ (obfuscate f r cfg.hashcode p (salts n) ≠ obfuscate f r cfg.hashcode p (salts (n + 1))
        ↔ saltWindow (salts n) ≠ saltWindow (salts (n + 1))) := by
  refine ⟨rfl, ?_⟩
  rw [obfuscate_eq_saltWindow f r cfg.hashcode p (salts n) (by omega),
    obfuscate_eq_saltWindow f r cfg.hashcode p (salts (n + 1)) (by omega)]
  constructor
  · intro hne heq
    exact hne (by rw [heq])
  · intro hne heq
    exact hne (List.asString_inj.mp heq)

/-- C7 amended witness: with salt 0 and salt 1 distinct but equal on the
token window, both rows are written and the tokens coincide. -/
theorem c7_amended_window_difference_witness :
    auditFor ⟨"sec", "N", "n@x.com", "u", false⟩ (fun _ _ => "HASHBODY")
        (fun i => if i % 2 = 0 then "$2b$12$AAAAAAAAAAAAAAAAAAAAAA"
          else "$2b$12$AAAAAAAAAAAAAAAAAAAAAB") "a@x.com" 0 [("7", []), ("7", [])] =
      [Event.auditWrite "a@x.com" "7"
        (obfuscate (fun _ _ => "HASHBODY") "a@x.com" "sec" "7"
          ((fun i => if i % 2 = 0 then "$2b$12$AAAAAAAAAAAAAAAAAAAAAA"
            else "$2b$12$AAAAAAAAAAAAAAAAAAAAAB") 0)),
       Event.auditWrite "a@x.com" "7"
        (obfuscate (fun _ _ => "HASHBODY") "a@x.com" "sec" "7"
          ((fun i => if i % 2 = 0 then "$2b$12$AAAAAAAAAAAAAAAAAAAAAA"
            else "$2b$12$AAAAAAAAAAAAAAAAAAAAAB") (0 + 1)))]
    ∧ (obfuscate (fun _ _ => "HASHBODY") "a@x.com" "sec" "7"
          ((fun i => if i % 2 = 0 then "$2b$12$AAAAAAAAAAAAAAAAAAAAAA"
            else "$2b$12$AAAAAAAAAAAAAAAAAAAAAB") 0)
        ≠ obfuscate (fun _ _ => "HASHBODY") "a@x.com" "sec" "7"
          ((fun i => if i % 2 = 0 then "$2b$12$AAAAAAAAAAAAAAAAAAAAAA"
            else "$2b$12$AAAAAAAAAAAAAAAAAAAAAB") (0 + 1))
        ↔ saltWindow ((fun i => if i % 2 = 0 then "$2b$12$AAAAAAAAAAAAAAAAAAAAAA"
            else "$2b$12$AAAAAAAAAAAAAAAAAAAAAB") 0)
          ≠ saltWindow ((fun i => if i % 2 = 0 then "$2b$12$AAAAAAAAAAAAAAAAAAAAAA"
            else "$2b$12$AAAAAAAAAAAAAAAAAAAAAB") (0 + 1))) :=
  c7_amended_window_difference ⟨"sec", "N", "n@x.com", "u", false⟩ (fun _ _ => "HASHBODY")
    (fun i => if i % 2 = 0 then "$2b$12$AAAAAAAAAAAAAAAAAAAAAA"
      else "$2b$12$AAAAAAAAAAAAAAAAAAAAAB") "a@x.com" "7" [] 0 (by decide) (by decide)

/-! ## Lemmas about the name join -/

theorem lookup_eq_none_iff (l : List (String × String)) (k : String) :
    l.lookup k = none ↔ ∀ p ∈ l, p.1 ≠ k := by
  induction l with
  | nil => simp
  | cons p rest ih =>
    obtain ⟨a, v⟩ := p
    by_cases h : a = k
    · subst h
      simp [List.lookup]
    · have hba : (k == a) = false := by
        simp [beq_eq_false_iff_ne, Ne.symm h]
      simp only [List.lookup, hba, List.mem_cons]
      rw [ih]
      constructor
      · rintro hall q (rfl | hq)
        · exact h
        · exact hall q hq
      · intro hall q hq
        exact hall q (Or.inr hq)

theorem dictLookup_eq_none_iff (l : List (String × String)) (k : String) :
    dictLookup l k = none ↔ ∀ p ∈ l, p.1 ≠ k := by
  unfold dictLookup
  rw [lookup_eq_none_iff]
  constructor
  · intro hall q hq
    exact hall q (List.mem_reverse.mpr hq)
  · intro hall q hq
    exact hall q (List.mem_reverse.mp hq)

/-- C9 counterexample: the pcinfo export has `Alice@U.EDU`, the conflicts
export has `alice@u.edu` — a pure case mismatch between the two sources.
The claim says this causes a silent miss and the greeting falls back to
the raw email; in the code BOTH sides of the join are lowercased, so the
lookup hits and the display name `A B` is used. -/
theorem c9_counterexample :
    greeting (buildNames [⟨"Alice@U.EDU", "A", "B"⟩]) "alice@u.edu" = "A B"
    ∧ ("Alice@U.EDU" : String) ≠ "alice@u.edu"
    ∧ ("A B" : String) ≠ "alice@u.edu" := by decide

/-- C9 (amended): the reviewer-name join lowercases BOTH the pcinfo key
and the conflicts-side recipient, so it is case-insensitive: a pure case
mismatch still hits. The greeting falls back to the raw reviewer email
exactly when no pcinfo row's lowercased email equals the recipient's
lowercased email; when some row matches, the lookup succeeds and the
display name is used. -/
theorem c9_amended_case_insensitive_join (pcrows : List PcInfoRow) (recipient : String) :
    ((∀ row ∈ pcrows, pyLower row.email ≠ pyLower recipient) →
      greeting (buildNames pcrows) recipient = recipient)
    ∧ ((∃ row ∈ pcrows, pyLower row.email = pyLower recipient) →
        ∃ n, dictLookup (buildNames pcrows) (pyLower recipient) = some n ∧
          greeting (buildNames pcrows) recipient = n) := by
  constructor
  · intro hall
    have hnone : dictLookup (buildNames pcrows) (pyLower recipient) = none := by
      rw [dictLookup_eq_none_iff]
      rintro q hq
      obtain ⟨row, hrow, rfl⟩ := List.mem_map.mp hq
      exact hall row hrow
    simp [greeting, hnone]
  · rintro ⟨row, hrow, hmatch⟩
    cases hlook : dictLookup (buildNames pcrows) (pyLower recipient) with
    | none =>
      exact absurd hmatch
        ((dictLookup_eq_none_iff _ _).mp hlook (pyLower row.email, row.first ++ " " ++ row.last)
          (List.mem_map.mpr ⟨row, hrow, rfl⟩))
    | some n =>
      exact ⟨n, rfl, by simp [greeting, hlook]⟩

/-- C9 amended witness: a case-mismatched pair still hits (first part at a
non-matching input, second part at the mismatched-case input). -/
theorem c9_amended_case_insensitive_join_witness :
    greeting (buildNames [⟨"Alice@U.EDU", "A", "B"⟩]) "carol@z.org" = "carol@z.org"
    ∧ ∃ n, dictLookup (buildNames [⟨"Alice@U.EDU", "A", "B"⟩]) (pyLower "alice@u.edu") = some n ∧
        greeting (buildNames [⟨"Alice@U.EDU", "A", "B"⟩]) "alice@u.edu" = n :=
  ⟨(c9_amended_case_insensitive_join [⟨"Alice@U.EDU", "A", "B"⟩] "carol@z.org").1
      (by decide),
    (c9_amended_case_insensitive_join [⟨"Alice@U.EDU", "A", "B"⟩] "alice@u.edu").2
      ⟨⟨"Alice@U.EDU", "A", "B"⟩, by decide, by decide⟩⟩

/-! ## Lemmas about the audit file -/

theorem filterMap_auditLine_length (t : List Event) :
    (t.filterMap auditLine).length = (t.filter isAuditEvent).length := by
  induction t with
  | nil => rfl
  | cons e rest ih => cases e <;> simp [auditLine, isAuditEvent, ih]

theorem auditFor_length (cfg : Config) (f : String → String → String)
    (salts : Nat → String) (r : String) :
    ∀ (n : Nat) (c : List (String × List String)),
      (auditFor cfg f salts r n c).length = c.length := by
  intro n c
  induction c generalizing n with
  | nil => rfl
  | cons x rest ih =>
    obtain ⟨p, l⟩ := x
    simp [auditFor, ih]

theorem auditFor_all_audit (cfg : Config) (f : String → String → String)
    (salts : Nat → String) (r : String) :
    ∀ (n : Nat) (c : List (String × List String)),
      ∀ e ∈ auditFor cfg f salts r n c, isAuditEvent e = true := by
  intro n c
  induction c generalizing n with
  | nil => intro e he; cases he
  | cons x rest ih =>
    obtain ⟨p, l⟩ := x
    intro e he
    rcases List.mem_cons.mp he with rfl | hmem
    · rfl
    · exact ih (n + 1) e hmem

/-- C10 counterexample: the audit file is opened with mode `"w"`, which
truncates. A run generating no tokens leaves only the header: the row
written by a previous run is gone, so the file does NOT record every token
ever generated across runs. -/
theorem c10_counterexample :
    runAuditFile ["email,paper,uid", "a@x.com,7,ZZZ"] [] = ["email,paper,uid"]
    ∧ "a@x.com,7,ZZZ" ∉ runAuditFile ["email,paper,uid", "a@x.com,7,ZZZ"] [] := by decide

/-- C10 (amended): within a single run the audit output starts with the
header `email,paper,uid` and has exactly one row per generated token,
appended in generation order (extending the trace only appends rows, and
every obfuscation step contributes exactly one audit event); but the file
is opened in truncating write mode, so its final contents are independent
of whatever previous runs left there — only the current run's tokens are
recorded. -/
theorem c10_amended_truncating_audit (prev prev2 : List String) (t1 t2 : List Event)
    (cfg : Config) (f : String → String → String) (salts : Nat → String)
    (r : String) (c : List (String × List String)) (n : Nat) :
    runAuditFile prev (t1 ++ t2) = runAuditFile prev t1 ++ t2.filterMap auditLine
    ∧ runAuditFile prev t1 = runAuditFile prev2 t1
    ∧ (runAuditFile prev t1).head? = some "email,paper,uid"
    ∧ (t1.filterMap auditLine).length = (t1.filter isAuditEvent).length
    ∧ (auditFor cfg f salts r n c).length = c.length
    ∧ (∀ e ∈ auditFor cfg f salts r n c, isAuditEvent e = true) := by
  refine ⟨?_, rfl, rfl, filterMap_auditLine_length t1,
    auditFor_length cfg f salts r n c, auditFor_all_audit cfg f salts r n c⟩
  simp [runAuditFile, List.filterMap_append]

/-- C10 amended witness: the file contents after a one-token run are the
same whether the previous run left a stale row or nothing. -/
theorem c10_amended_truncating_audit_witness :
    runAuditFile ["stale"] [Event.auditWrite "a@x.com" "7" "TOK"]
      = runAuditFile [] [Event.auditWrite "a@x.com" "7" "TOK"] :=
  (c10_amended_truncating_audit ["stale"] [] [Event.auditWrite "a@x.com" "7" "TOK"] []
    sampleConfig sampleHash sampleSalts "a@x.com" [] 0).2.1

/-! ## Structure of the notifier trace -/

theorem notifyAll_nil (cfg : Config) (f : String → String → String) (salts : Nat → String)
    (names : List (String × String)) (ct : String → String → String)
    (shuffled : String → List (String × List String)) (n : Nat) :
    notifyAll cfg f salts names ct shuffled [] n = [] := rfl

theorem notifyAll_cons (cfg : Config) (f : String → String → String) (salts : Nat → String)
    (names : List (String × String)) (ct : String → String → String)
    (shuffled : String → List (String × List String))
    (r0 : String) (rs : List String) (n : Nat) :
    notifyAll cfg f salts names ct shuffled (r0 :: rs) n =
      auditFor cfg f salts r0 n (shuffled r0) ++
        msgEvent cfg r0 (msgFor cfg f salts names (ct r0) r0 n (shuffled r0)) ::
        notifyAll cfg f salts names ct shuffled rs (n + (shuffled r0).length) := rfl

theorem eventEmail_of_isAuditRow {r p : String} {e : Event}
    (h : isAuditRow r p e = true) : eventEmail e = r := by
  cases e with
  | auditWrite e2 q u =>
    simp only [isAuditRow, Bool.and_eq_true, beq_iff_eq] at h
    exact h.1
  | send e2 m => simp [isAuditRow] at h
  | print e2 m => simp [isAuditRow] at h

theorem isMsgFor_eq_false_of_audit {r : String} {e : Event}
    (h : isAuditEvent e = true) : isMsgFor r e = false := by
  cases e with
  | auditWrite e2 q u => rfl
  | send e2 m => simp [isAuditEvent] at h
  | print e2 m => simp [isAuditEvent] at h

theorem print_of_isMsgFor {r : String} {e : Event}
    (hm : isMsgFor r e = true) (hn : isSendEvent e = false) :
    ∃ m, e = Event.print r m := by
  cases e with
  | auditWrite e2 q u => simp [isMsgFor] at hm
  | send e2 m => simp [isSendEvent] at hn
  | print e2 m =>
    simp only [isMsgFor, beq_iff_eq] at hm
    exact ⟨m, by rw [hm]⟩

theorem eventEmail_msgEvent (cfg : Config) (r m : String) :
    eventEmail (msgEvent cfg r m) = r := by
  unfold msgEvent
  split <;> rfl

theorem isMsgFor_msgEvent (cfg : Config) (r0 r m : String) :
    isMsgFor r (msgEvent cfg r0 m) = (r0 == r) := by
  unfold msgEvent
  split <;> rfl

theorem isAuditRow_msgEvent (cfg : Config) (r0 r p m : String) :
    isAuditRow r p (msgEvent cfg r0 m) = false := by
  unfold msgEvent
  split <;> rfl

theorem isSendEvent_msgEvent_of_dry (cfg : Config) (h : cfg.reallySend = false)
    (r m : String) : isSendEvent (msgEvent cfg r m) = false := by
  simp [msgEvent, h, isSendEvent]

theorem mem_auditFor (cfg : Config) (f : String → String → String)
    (salts : Nat → String) (r : String) :
    ∀ (n : Nat) (c : List (String × List String)) (e : Event),
      e ∈ auditFor cfg f salts r n c →
      ∃ q u, e = Event.auditWrite r q u ∧ q ∈ c.map Prod.fst := by
  intro n c
  induction c generalizing n with
  | nil => intro e he; cases he
  | cons x rest ih =>
    obtain ⟨q0, l0⟩ := x
    intro e he
    rcases List.mem_cons.mp he with rfl | hmem
    · exact ⟨q0, _, rfl, by simp⟩
    · obtain ⟨q, u, he2, hq⟩ := ih (n + 1) e hmem
      exact ⟨q, u, he2, by simp [hq]⟩

theorem countP_isAuditRow_auditFor (cfg : Config) (f : String → String → String)
    (salts : Nat → String) (r p : String) :
    ∀ (n : Nat) (c : List (String × List String)),
      (auditFor cfg f salts r n c).countP (isAuditRow r p)
        = c.countP (fun x => x.1 == p) := by
  intro n c
  induction c generalizing n with
  | nil => rfl
  | cons x rest ih =>
    obtain ⟨q, l⟩ := x
    simp [auditFor, List.countP_cons, ih (n + 1), isAuditRow]

theorem countP_isAuditRow_auditFor_ne (cfg : Config) (f : String → String → String)
    (salts : Nat → String) {r r2 : String} (hne : r ≠ r2) (p : String)
    (n : Nat) (c : List (String × List String)) :
    (auditFor cfg f salts r2 n c).countP (isAuditRow r p) = 0 := by
  apply List.countP_eq_zero.mpr
  intro e he
  obtain ⟨q, u, rfl, _⟩ := mem_auditFor cfg f salts r2 n c e he
  simp only [isAuditRow, Bool.and_eq_true, beq_iff_eq, not_and]
  rintro rfl
  exact absurd rfl hne

theorem countP_isMsgFor_auditFor (cfg : Config) (f : String → String → String)
    (salts : Nat → String) (r2 r : String) (n : Nat) (c : List (String × List String)) :
    (auditFor cfg f salts r2 n c).countP (isMsgFor r) = 0 := by
  apply List.countP_eq_zero.mpr
  intro e he
  obtain ⟨q, u, rfl, _⟩ := mem_auditFor cfg f salts r2 n c e he
  simp [isMsgFor]

theorem mem_notifyAll (cfg : Config) (f : String → String → String) (salts : Nat → String)
    (names : List (String × String)) (ct : String → String → String)
    (shuffled : String → List (String × List String)) :
    ∀ (rs : List String) (n : Nat) (e : Event),
      e ∈ notifyAll cfg f salts names ct shuffled rs n → eventEmail e ∈ rs := by
  intro rs
  induction rs with
  | nil => intro n e he; cases he
  | cons r0 rs2 ih =>
    intro n e he
    rw [notifyAll_cons] at he
    rcases List.mem_append.mp he with h1 | h2
    · obtain ⟨q, u, rfl, _⟩ := mem_auditFor cfg f salts r0 n (shuffled r0) e h1
      simp [eventEmail]
    · rcases List.mem_cons.mp h2 with rfl | h3
      · rw [eventEmail_msgEvent]
        simp
      · exact List.mem_cons_of_mem _ (ih _ e h3)

theorem countP_isAuditRow_notifyAll_zero (cfg : Config) (f : String → String → String)
    (salts : Nat → String) (names : List (String × String)) (ct : String → String → String)
    (shuffled : String → List (String × List String)) {r : String} (p : String)
    (rs : List String) (n : Nat) (hr : r ∉ rs) :
    (notifyAll cfg f salts names ct shuffled rs n).countP (isAuditRow r p) = 0 := by
  apply List.countP_eq_zero.mpr
  intro e he hbad
  have hmail := eventEmail_of_isAuditRow hbad
  exact hr (hmail ▸ mem_notifyAll cfg f salts names ct shuffled rs n e he)

theorem countP_isMsgFor_notifyAll (cfg : Config) (f : String → String → String)
    (salts : Nat → String) (names : List (String × String)) (ct : String → String → String)
    (shuffled : String → List (String × List String)) (r : String) :
    ∀ (rs : List String) (n : Nat), rs.Nodup →
      (notifyAll cfg f salts names ct shuffled rs n).countP (isMsgFor r)
        = (if r ∈ rs then 1 else 0) := by
  intro rs
  induction rs with
  | nil => intro n _; simp [notifyAll_nil]
  | cons r0 rs2 ih =>
    intro n hnd
    obtain ⟨hr0nin, hnd2⟩ := List.nodup_cons.mp hnd
    rw [notifyAll_cons, List.countP_append, List.countP_cons,
      countP_isMsgFor_auditFor, ih _ hnd2, isMsgFor_msgEvent]
    by_cases h : r0 = r
    · subst h
      have hnin : r0 ∉ rs2 := hr0nin
      simp [hnin]
    · have hb : (r0 == r) = false := by simp [h]
      simp [hb, List.mem_cons, Ne.symm h]

theorem notifyAll_split (cfg : Config) (f : String → String → String)
    (salts : Nat → String) (names : List (String × String)) (ct : String → String → String)
    (shuffled : String → List (String × List String)) (r p : String)
    (hcount : (shuffled r).countP (fun x => x.1 == p) = 1) :
    ∀ (rs : List String) (n : Nat), rs.Nodup → r ∈ rs →
      ∃ pre e post,
        notifyAll cfg f salts names ct shuffled rs n = pre ++ e :: post
        ∧ isMsgFor r e = true
        ∧ pre.countP (isAuditRow r p) = 1
        ∧ pre.countP (isMsgFor r) = 0
        ∧ (e :: post).countP (isAuditRow r p) = 0 := by
  intro rs
  induction rs with
  | nil => intro n _ hr; cases hr
  | cons r0 rs2 ih =>
    intro n hnd hr
    obtain ⟨hr0nin, hnd2⟩ := List.nodup_cons.mp hnd
    by_cases hr0 : r0 = r
    · subst hr0
      refine ⟨auditFor cfg f salts r0 n (shuffled r0),
        msgEvent cfg r0 (msgFor cfg f salts names (ct r0) r0 n (shuffled r0)),
        notifyAll cfg f salts names ct shuffled rs2 (n + (shuffled r0).length),
        notifyAll_cons cfg f salts names ct shuffled r0 rs2 n, ?_, ?_, ?_, ?_⟩
      · rw [isMsgFor_msgEvent]
        simp
      · rw [countP_isAuditRow_auditFor]
        exact hcount
      · exact countP_isMsgFor_auditFor cfg f salts r0 r0 n (shuffled r0)
      · rw [List.countP_cons, isAuditRow_msgEvent,
          countP_isAuditRow_notifyAll_zero cfg f salts names ct shuffled p rs2 _ hr0nin]
        simp
    · have hrin : r ∈ rs2 := by
        rcases List.mem_cons.mp hr with h | h
        · exact absurd h.symm hr0
        · exact h
      obtain ⟨pre, e, post, heq, hmsg, h1, h2, h3⟩ :=
        ih (n + (shuffled r0).length) hnd2 hrin
      refine ⟨auditFor cfg f salts r0 n (shuffled r0) ++
          msgEvent cfg r0 (msgFor cfg f salts names (ct r0) r0 n (shuffled r0)) :: pre,
        e, post, ?_, hmsg, ?_, ?_, h3⟩
      · rw [notifyAll_cons, heq]
        simp
      · rw [List.countP_append, List.countP_cons, isAuditRow_msgEvent,
          countP_isAuditRow_auditFor_ne cfg f salts (Ne.symm hr0) p, h1]
        simp
      · have hb : (r0 == r) = false := by simp [hr0]
        rw [List.countP_append, List.countP_cons, isMsgFor_msgEvent, hb,
          countP_isMsgFor_auditFor, h2]
        simp

theorem no_send_of_dry (cfg : Config) (f : String → String → String)
    (salts : Nat → String) (names : List (String × String)) (ct : String → String → String)
    (shuffled : String → List (String × List String)) (h : cfg.reallySend = false) :
    ∀ (rs : List String) (n : Nat) (e : Event),
      e ∈ notifyAll cfg f salts names ct shuffled rs n → isSendEvent e = false := by
  intro rs
  induction rs with
  | nil => intro n e he; cases he
  | cons r0 rs2 ih =>
    intro n e he
    rw [notifyAll_cons] at he
    rcases List.mem_append.mp he with h1 | h2
    · obtain ⟨q, u, rfl, _⟩ := mem_auditFor cfg f salts r0 n (shuffled r0) e h1
      rfl
    · rcases List.mem_cons.mp h2 with rfl | h3
      · exact isSendEvent_msgEvent_of_dry cfg h r0 _
      · exact ih _ e h3

theorem print_msg_mem_of_dry (cfg : Config) (f : String → String → String)
    (salts : Nat → String) (names : List (String × String)) (ct : String → String → String)
    (shuffled : String → List (String × List String)) (h : cfg.reallySend = false)
    (r : String) :
    ∀ (rs : List String) (n : Nat), r ∈ rs →
      ∃ k, Event.print r (msgFor cfg f salts names (ct r) r k (shuffled r))
        ∈ notifyAll cfg f salts names ct shuffled rs n := by
  intro rs
  induction rs with
  | nil => intro n hr; cases hr
  | cons r0 rs2 ih =>
    intro n hr
    rcases List.mem_cons.mp hr with rfl | hrin
    · refine ⟨n, ?_⟩
      rw [notifyAll_cons]
      apply List.mem_append.mpr
      right
      have : msgEvent cfg r (msgFor cfg f salts names (ct r) r n (shuffled r))
          = Event.print r (msgFor cfg f salts names (ct r) r n (shuffled r)) := by
        simp [msgEvent, h]
      rw [← this]
      exact List.mem_cons_self _ _
    · obtain ⟨k, hk⟩ := ih (n + (shuffled r0).length) hrin
      refine ⟨k, ?_⟩
      rw [notifyAll_cons]
      exact List.mem_append.mpr (Or.inr (List.mem_cons_of_mem _ hk))

theorem recipientsOf_append (t1 t2 : List Event) :
    recipientsOf (t1 ++ t2) = recipientsOf t1 ++ recipientsOf t2 :=
  List.filterMap_append t1 t2 _

theorem recipientsOf_auditFor (cfg : Config) (f : String → String → String)
    (salts : Nat → String) (r : String) :
    ∀ (n : Nat) (c : List (String × List String)),
      recipientsOf (auditFor cfg f salts r n c) = [] := by
  intro n c
  induction c generalizing n with
  | nil => rfl
  | cons x rest ih =>
    obtain ⟨q, l⟩ := x
    simp only [auditFor, recipientsOf, List.filterMap_cons]
    exact ih (n + 1)

theorem recipientsOf_notifyAll (cfg : Config) (f : String → String → String)
    (salts : Nat → String) (names : List (String × String)) (ct : String → String → String)
    (shuffled : String → List (String × List String)) :
    ∀ (rs : List String) (n : Nat),
      recipientsOf (notifyAll cfg f salts names ct shuffled rs n) = rs := by
  intro rs
  induction rs with
  | nil => intro n; rfl
  | cons r0 rs2 ih =>
    intro n
    rw [notifyAll_cons, recipientsOf_append, recipientsOf_auditFor]
    by_cases hrs : cfg.reallySend <;>
      simp [recipientsOf, msgEvent, hrs, List.filterMap_cons] <;>
      exact ih _

theorem auditRecordsOf_append (t1 t2 : List Event) (r : String) :
    auditRecordsOf (t1 ++ t2) r = auditRecordsOf t1 r ++ auditRecordsOf t2 r :=
  List.filterMap_append t1 t2 _

theorem auditRecordsOf_auditFor_same (cfg : Config) (f : String → String → String)
    (salts : Nat → String) (r : String) :
    ∀ (n : Nat) (c : List (String × List String)),
      auditRecordsOf (auditFor cfg f salts r n c) r = c.map Prod.fst := by
  intro n c
  induction c generalizing n with
  | nil => rfl
  | cons x rest ih =>
    obtain ⟨q, l⟩ := x
    simp only [auditFor, auditRecordsOf, List.filterMap_cons, beq_self_eq_true, if_pos,
      List.map_cons]
    rw [← ih (n + 1)]
    rfl

theorem auditRecordsOf_auditFor_ne (cfg : Config) (f : String → String → String)
    (salts : Nat → String) {r r2 : String} (hne : r ≠ r2) :
    ∀ (n : Nat) (c : List (String × List String)),
      auditRecordsOf (auditFor cfg f salts r2 n c) r = [] := by
  intro n c
  induction c generalizing n with
  | nil => rfl
  | cons x rest ih =>
    obtain ⟨q, l⟩ := x
    have hb : (r2 == r) = false := by simp [Ne.symm hne]
    simp only [auditFor, auditRecordsOf, List.filterMap_cons, hb]
    exact ih (n + 1)

theorem auditRecordsOf_msgEvent_cons (cfg : Config) (r0 m r : String) (t : List Event) :
    auditRecordsOf (msgEvent cfg r0 m :: t) r = auditRecordsOf t r := by
  by_cases hrs : cfg.reallySend <;> simp [auditRecordsOf, msgEvent, hrs, List.filterMap_cons]

theorem auditRecordsOf_notifyAll (cfg : Config) (f : String → String → String)
    (salts : Nat → String) (names : List (String × String)) (ct : String → String → String)
    (shuffled : String → List (String × List String)) (r : String) :
    ∀ (rs : List String) (n : Nat), rs.Nodup →
      auditRecordsOf (notifyAll cfg f salts names ct shuffled rs n) r
        = (if r ∈ rs then (shuffled r).map Prod.fst else []) := by
  intro rs
  induction rs with
  | nil => intro n _; simp [notifyAll_nil, auditRecordsOf]
  | cons r0 rs2 ih =>
    intro n hnd
    obtain ⟨hr0nin, hnd2⟩ := List.nodup_cons.mp hnd
    rw [notifyAll_cons, auditRecordsOf_append, auditRecordsOf_msgEvent_cons,
      ih _ hnd2]
    by_cases h : r0 = r
    · subst h
      rw [auditRecordsOf_auditFor_same]
      simp [hr0nin]
    · rw [auditRecordsOf_auditFor_ne cfg f salts (Ne.symm h)]
      simp [List.mem_cons, Ne.symm h]

theorem mem_notifyAll_audit (cfg : Config) (f : String → String → String)
    (salts : Nat → String) (names : List (String × String)) (ct : String → String → String)
    (shuffled : String → List (String × List String)) :
    ∀ (rs : List String) (n : Nat) (r p u : String),
      Event.auditWrite r p u ∈ notifyAll cfg f salts names ct shuffled rs n →
      r ∈ rs ∧ p ∈ (shuffled r).map Prod.fst := by
  intro rs
  induction rs with
  | nil => intro n r p u he; cases he
  | cons r0 rs2 ih =>
    intro n r p u he
    rw [notifyAll_cons] at he
    rcases List.mem_append.mp he with h1 | h2
    · obtain ⟨q, v, heq, hq⟩ := mem_auditFor cfg f salts r0 n (shuffled r0) _ h1
      obtain ⟨rfl, rfl, rfl⟩ : r = r0 ∧ p = q ∧ u = v := by
        cases heq
        exact ⟨rfl, rfl, rfl⟩
      exact ⟨List.mem_cons_self _ _, hq⟩
    · rcases List.mem_cons.mp h2 with heq | h3
      · exfalso
        by_cases hrs : cfg.reallySend <;> simp [msgEvent, hrs] at heq
      · obtain ⟨hin, hp⟩ := ih _ r p u h3
        exact ⟨List.mem_cons_of_mem _ hin, hp⟩

/-! ## Sorted recipients and survivor counting -/

theorem mem_sortedRecipients (survs : List Surv) (r : String) :
    r ∈ sortedRecipients survs ↔ ∃ s ∈ survs, s.email = r := by
  unfold sortedRecipients reviewerKeys
  rw [(List.perm_insertionSort (fun a b => a ≤ b) _).mem_iff, List.mem_dedup, List.mem_map]

theorem sortedRecipients_nodup (survs : List Surv) :
    (sortedRecipients survs).Nodup :=
  (List.perm_insertionSort (fun a b => a ≤ b) _).nodup_iff.mpr (List.nodup_dedup _)

theorem sortedRecipients_sorted (survs : List Surv) :
    (sortedRecipients survs).Sorted (fun a b => a ≤ b) :=
  List.sorted_insertionSort (fun a b => a ≤ b) _

theorem countP_beq_eq_one {γ : Type} [BEq γ] [LawfulBEq γ] :
    ∀ {l : List γ} {a : γ}, l.Nodup → a ∈ l → l.countP (fun x => x == a) = 1 := by
  intro l a hnd ha
  induction l with
  | nil => cases ha
  | cons b t ih =>
    obtain ⟨hbnin, hndt⟩ := List.nodup_cons.mp hnd
    rw [List.countP_cons]
    rcases List.mem_cons.mp ha with rfl | hat
    · have hz : t.countP (fun x => x == a) = 0 := by
        apply List.countP_eq_zero.mpr
        intro x hx hbad
        exact hbnin (by rw [← (beq_iff_eq).mp hbad]; exact hx)
      simp [hz]
    · have hb : (b == a) = false := by
        have hne : b ≠ a := fun h => hbnin (h ▸ hat)
        simp [hne]
      rw [ih hndt hat, hb]
      simp

theorem pairs_countP_eq_one (survs : List Surv) (r p : String)
    (hnodup : (survs.map (fun s => (s.email, s.paper))).Nodup)
    (hrp : ∃ s ∈ survs, s.email = r ∧ s.paper = p) :
    (pairsOf survs r).countP (fun x => x.1 == p) = 1 := by
  unfold pairsOf conflictsOf
  rw [List.countP_map, List.countP_filter]
  have hcongr : ∀ s ∈ survs,
      (((fun x : String × List String => x.1 == p) ∘ fun s => (s.paper, s.alist)) s
        && (s.email == r))
      = ((fun s : Surv => (s.email, s.paper)) s == (r, p)) := by
    intro s _
    show ((s.paper == p) && (s.email == r)) = ((s.email, s.paper) == (r, p))
    show ((s.paper == p) && (s.email == r)) = ((s.email == r) && (s.paper == p))
    exact Bool.and_comm _ _
  rw [List.countP_congr (fun s hs => by rw [hcongr s hs])]
  obtain ⟨s, hs, hr, hp⟩ := hrp
  have hmem : (r, p) ∈ survs.map (fun s => (s.email, s.paper)) :=
    List.mem_map.mpr ⟨s, hs, by rw [hr, hp]⟩
  have hcnt : (survs.map (fun s => (s.email, s.paper))).countP (fun x => x == (r, p)) = 1 :=
    countP_beq_eq_one hnodup hmem
  rw [List.countP_map] at hcnt
  exact hcnt

theorem filterRow_kept_inv (authors : String → List String) (row : ConflictRow) (s : Surv)
    (h : filterRow authors row = RowResult.kept s) :
    s = ⟨row.email, row.paper, (authors row.paper).dedup, row.conflicttype⟩
    ∧ row.conflicttype ∈ keptTypes := by
  simp only [filterRow] at h
  split at h
  · exact absurd h (by simp)
  · by_cases hk : row.conflicttype ∈ keptTypes
    · rw [if_pos hk] at h
      rename_i rd hrd
      by_cases hw : rd ∈ webmail
      · rw [if_pos hw] at h
        exact ⟨(RowResult.kept.inj h).symm, hk⟩
      · rw [if_neg hw] at h
        by_cases hsup : suppressedByDomain rd ((authors row.paper).dedup) = true
        · rw [if_pos hsup] at h
          exact absurd h (by simp)
        · rw [if_neg hsup] at h
          exact ⟨(RowResult.kept.inj h).symm, hk⟩
    · rw [if_neg hk] at h
      exact absurd h (by simp)

theorem survivors_mem_inv (authors : String → List String) :
    ∀ (crows : List ConflictRow) (survs : List Surv),
      survivors authors crows = some survs →
      ∀ s ∈ survs, ∃ row ∈ crows, filterRow authors row = RowResult.kept s := by
  intro crows
  induction crows with
  | nil =>
    intro survs h s hs
    simp only [survivors, Option.some.injEq] at h
    subst h
    cases hs
  | cons row rest ih =>
    intro survs h s hs
    simp only [survivors] at h
    split at h
    · exact absurd h (by simp)
    · obtain ⟨row2, hr2, hk2⟩ := ih survs h s hs
      exact ⟨row2, List.mem_cons_of_mem _ hr2, hk2⟩
    · rename_i s0 hkept
      obtain ⟨tail, htail, hsurvs⟩ := Option.map_eq_some'.mp h
      subst hsurvs
      rcases List.mem_cons.mp hs with rfl | hstail
      · exact ⟨row, List.mem_cons_self _ _, hkept⟩
      · obtain ⟨row2, hr2, hk2⟩ := ih tail htail s hstail
        exact ⟨row2, List.mem_cons_of_mem _ hr2, hk2⟩

theorem pairsOf_map_fst (survs : List Surv) (r : String) :
    (pairsOf survs r).map Prod.fst = (conflictsOf survs r).map (fun s => s.paper) := by
  simp [pairsOf, List.map_map]

theorem conflictsOf_eq_nil (survs : List Surv) (r : String)
    (h : ¬∃ s ∈ survs, s.email = r) : conflictsOf survs r = [] := by
  apply List.filter_eq_nil_iff.mpr
  intro s hs hbeq
  exact h ⟨s, hs, beq_iff_eq.mp hbeq⟩

theorem sampleShuffle_perm : ∀ r2, (sampleShuffle r2).Perm (pairsOf [sampleSurv] r2) := by
  intro r2
  by_cases h : r2 = "a@u.edu"
  · subst h
    decide
  · have hb : (("a@u.edu" : String) == r2) = false := by
      simp [beq_eq_false_iff_ne, Ne.symm h]
    simp [sampleShuffle, h, pairsOf, conflictsOf, sampleSurv, hb]

/-- C1: for every conflict record rendered in a reviewer's message (a
surviving record of reviewer `r` on paper `p`, with distinct
(reviewer, paper) pairs in the filtered set), the run trace splits at the
unique message event of `r`: exactly one audit row for `(r, p)` is written
strictly before that message is sent or printed, and none after. -/
theorem c1_audit_row_before_message (cfg : Config) (f : String → String → String)
    (salts : Nat → String) (pcrows : List PcInfoRow) (arows : List AuthorRow)
    (crows : List ConflictRow) (shuffled : String → List (String × List String))
    (survs : List Surv) (trace : List Event)
    (hs : survivors (allAuthors arows) crows = some survs)
    (ht : runTrace cfg f salts pcrows arows crows shuffled = some trace)
    (hshuf : ∀ r2, (shuffled r2).Perm (pairsOf survs r2))
    (hnodup : (survs.map (fun s => (s.email, s.paper))).Nodup)
    (r p : String) (hrp : ∃ s ∈ survs, s.email = r ∧ s.paper = p) :
    ∃ pre e post,
      trace = pre ++ e :: post
      ∧ isMsgFor r e = true
      ∧ pre.countP (isAuditRow r p) = 1
      ∧ pre.countP (isMsgFor r) = 0
      ∧ (e :: post).countP (isAuditRow r p) = 0 := by
  have htrace : trace = notifyAll cfg f salts (buildNames pcrows) (ctypeOf survs) shuffled
      (sortedRecipients survs) 0 := by
    unfold runTrace at ht
    rw [hs] at ht
    exact (Option.some.inj ht).symm
  have hcount : (shuffled r).countP (fun x => x.1 == p) = 1 :=
    ((hshuf r).countP_eq _).trans (pairs_countP_eq_one survs r p hnodup hrp)
  have hrmem : r ∈ sortedRecipients survs := by
    rw [mem_sortedRecipients]
    obtain ⟨s, hs2, hr2, _⟩ := hrp
    exact ⟨s, hs2, hr2⟩
  obtain ⟨pre, e, post, heq, hmsg, h1, h2, h3⟩ :=
    notifyAll_split cfg f salts (buildNames pcrows) (ctypeOf survs) shuffled r p hcount
      (sortedRecipients survs) 0 (sortedRecipients_nodup survs) hrmem
  exact ⟨pre, e, post, htrace.trans heq, hmsg, h1, h2, h3⟩

/-- C1 witness: in the sample run, reviewer `a@u.edu`'s single surviving
conflict on paper `12` has exactly one audit row, written before the
message event. -/
theorem c1_audit_row_before_message_witness :
    ∃ pre e post,
      notifyAll sampleConfig sampleHash sampleSalts (buildNames []) (ctypeOf [sampleSurv])
          sampleShuffle (sortedRecipients [sampleSurv]) 0 = pre ++ e :: post
      ∧ isMsgFor "a@u.edu" e = true
      ∧ pre.countP (isAuditRow "a@u.edu" "12") = 1
      ∧ pre.countP (isMsgFor "a@u.edu") = 0
      ∧ (e :: post).countP (isAuditRow "a@u.edu" "12") = 0 :=
  c1_audit_row_before_message sampleConfig sampleHash sampleSalts [] sampleAuthors
    sampleConflicts sampleShuffle [sampleSurv] _ (by decide) rfl sampleShuffle_perm
    (by decide) "a@u.edu" "12" ⟨sampleSurv, by decide, by decide, by decide⟩

/-- C3: a raw conflict row survives filtering only if its type is in the
closed set {Pinned conflict, Personal, Other}: (1) a row of any other type
is never kept; (2) every surviving record's type is in the set; (3) every
audit row of the run trace belongs to a surviving record, whose type is
therefore in the set (so dropped types appear in no message and no audit
row). -/
theorem c3_kept_type_gate (authors : String → List String) :
    (∀ row : ConflictRow, row.conflicttype ∉ keptTypes →
        ∀ s : Surv, filterRow authors row ≠ RowResult.kept s)
    ∧ (∀ (crows : List ConflictRow) (survs : List Surv),
        survivors authors crows = some survs → ∀ s ∈ survs, s.ctype ∈ keptTypes)
    ∧ (∀ (cfg : Config) (f : String → String → String) (salts : Nat → String)
        (names : List (String × String)) (shuffled : String → List (String × List String))
        (crows : List ConflictRow) (survs : List Surv),
        survivors authors crows = some survs →
        (∀ r2, (shuffled r2).Perm (pairsOf survs r2)) →
        ∀ r p u, Event.auditWrite r p u ∈
            notifyAll cfg f salts names (ctypeOf survs) shuffled (sortedRecipients survs) 0 →
          ∃ s ∈ survs, s.email = r ∧ s.paper = p ∧ s.ctype ∈ keptTypes) := by
  have hkept : ∀ (crows : List ConflictRow) (survs : List Surv),
      survivors authors crows = some survs → ∀ s ∈ survs, s.ctype ∈ keptTypes := by
    intro crows survs h s hs
    obtain ⟨row, _, hk⟩ := survivors_mem_inv authors crows survs h s hs
    obtain ⟨hfields, htype⟩ := filterRow_kept_inv authors row s hk
    rw [hfields]
    exact htype
  refine ⟨?_, hkept, ?_⟩
  · intro row hk s h
    exact hk (filterRow_kept_inv authors row s h).2
  · intro cfg f salts names shuffled crows survs hsv hshuf r p u hmem
    obtain ⟨_, hp⟩ := mem_notifyAll_audit cfg f salts names (ctypeOf survs) shuffled
      (sortedRecipients survs) 0 r p u hmem
    have hp2 : p ∈ (pairsOf survs r).map Prod.fst :=
      (((hshuf r).map Prod.fst).mem_iff).mp hp
    rw [pairsOf_map_fst] at hp2
    obtain ⟨s, hsin, hps⟩ := List.mem_map.mp hp2
    obtain ⟨hsin2, hbeq⟩ := List.mem_filter.mp hsin
    exact ⟨s, hsin2, beq_iff_eq.mp hbeq, hps, hkept crows survs hsv s hsin2⟩

/-- C3 witness: a row of (non-kept) type `Co-author` is not kept; the
sample surviving record's type is in the kept set. -/
theorem c3_kept_type_gate_witness :
    filterRow (allAuthors sampleAuthors) ⟨"a@u.edu", "12", "Co-author"⟩ ≠
      RowResult.kept ⟨"a@u.edu", "12", ["B C <b@corp.com>"], "Co-author"⟩
    ∧ sampleSurv.ctype ∈ keptTypes :=
  ⟨(c3_kept_type_gate (allAuthors sampleAuthors)).1 ⟨"a@u.edu", "12", "Co-author"⟩
      (by decide) ⟨"a@u.edu", "12", ["B C <b@corp.com>"], "Co-author"⟩,
    (c3_kept_type_gate (allAuthors sampleAuthors)).2.1 sampleConflicts [sampleSurv]
      (by decide) sampleSurv (by decide)⟩

/-- C5: when the live-send flag is not set, the run trace contains no
transmission event at all, regardless of how many reviewers have
surviving conflicts; every recipient has exactly one message event, and
the composed message of each recipient appears as a print event. -/
theorem c5_dry_run_prints_only (cfg : Config) (f : String → String → String)
    (salts : Nat → String) (pcrows : List PcInfoRow) (arows : List AuthorRow)
    (crows : List ConflictRow) (shuffled : String → List (String × List String))
    (survs : List Surv) (trace : List Event)
    (hs : survivors (allAuthors arows) crows = some survs)
    (ht : runTrace cfg f salts pcrows arows crows shuffled = some trace)
    (hdry : cfg.reallySend = false) :
    (∀ e ∈ trace, isSendEvent e = false)
    ∧ (∀ r ∈ sortedRecipients survs, trace.countP (isMsgFor r) = 1)
    ∧ (∀ r ∈ sortedRecipients survs, ∃ k,
        Event.print r (msgFor cfg f salts (buildNames pcrows) (ctypeOf survs r) r k
          (shuffled r)) ∈ trace) := by
  have htrace : trace = notifyAll cfg f salts (buildNames pcrows) (ctypeOf survs) shuffled
      (sortedRecipients survs) 0 := by
    unfold runTrace at ht
    rw [hs] at ht
    exact (Option.some.inj ht).symm
  subst htrace
  refine ⟨?_, ?_, ?_⟩
  · intro e he
    exact no_send_of_dry cfg f salts (buildNames pcrows) (ctypeOf survs) shuffled hdry
      (sortedRecipients survs) 0 e he
  · intro r hr
    rw [countP_isMsgFor_notifyAll cfg f salts (buildNames pcrows) (ctypeOf survs) shuffled r
      (sortedRecipients survs) 0 (sortedRecipients_nodup survs), if_pos hr]
  · intro r hr
    exact print_msg_mem_of_dry cfg f salts (buildNames pcrows) (ctypeOf survs) shuffled hdry
      r (sortedRecipients survs) 0 hr

/-- C5 witness: the sample dry run has exactly one message event for
`a@u.edu` and its composed message appears as a print event. -/
theorem c5_dry_run_prints_only_witness :
    (notifyAll sampleConfig sampleHash sampleSalts (buildNames []) (ctypeOf [sampleSurv])
        sampleShuffle (sortedRecipients [sampleSurv]) 0).countP (isMsgFor "a@u.edu") = 1
    ∧ ∃ k, Event.print "a@u.edu"
        (msgFor sampleConfig sampleHash sampleSalts (buildNames [])
          (ctypeOf [sampleSurv] "a@u.edu") "a@u.edu" k (sampleShuffle "a@u.edu"))
        ∈ notifyAll sampleConfig sampleHash sampleSalts (buildNames []) (ctypeOf [sampleSurv])
            sampleShuffle (sortedRecipients [sampleSurv]) 0 :=
  ⟨(c5_dry_run_prints_only sampleConfig sampleHash sampleSalts [] sampleAuthors
      sampleConflicts sampleShuffle [sampleSurv] _ (by decide) rfl rfl).2.1 "a@u.edu"
      (by decide),
    (c5_dry_run_prints_only sampleConfig sampleHash sampleSalts [] sampleAuthors
      sampleConflicts sampleShuffle [sampleSurv] _ (by decide) rfl rfl).2.2 "a@u.edu"
      (by decide)⟩

/-- C8: recipients with at least one surviving conflict are processed in
ascending sorted order of reviewer email (the message events appear in
exactly that order), and within each reviewer the rendered conflict
records are a permutation of that reviewer's surviving conflict set. -/
theorem c8_sorted_recipients_permuted_lines (cfg : Config) (f : String → String → String)
    (salts : Nat → String) (pcrows : List PcInfoRow) (arows : List AuthorRow)
    (crows : List ConflictRow) (shuffled : String → List (String × List String))
    (survs : List Surv) (trace : List Event)
    (hs : survivors (allAuthors arows) crows = some survs)
    (ht : runTrace cfg f salts pcrows arows crows shuffled = some trace)
    (hshuf : ∀ r2, (shuffled r2).Perm (pairsOf survs r2)) :
    recipientsOf trace = sortedRecipients survs
    ∧ (sortedRecipients survs).Sorted (fun a b => a ≤ b)
    ∧ (∀ r, r ∈ sortedRecipients survs ↔ ∃ s ∈ survs, s.email = r)
    ∧ (∀ r, (auditRecordsOf trace r).Perm ((conflictsOf survs r).map (fun s => s.paper))) := by
  have htrace : trace = notifyAll cfg f salts (buildNames pcrows) (ctypeOf survs) shuffled
      (sortedRecipients survs) 0 := by
    unfold runTrace at ht
    rw [hs] at ht
    exact (Option.some.inj ht).symm
  subst htrace
  refine ⟨recipientsOf_notifyAll cfg f salts (buildNames pcrows) (ctypeOf survs) shuffled
      (sortedRecipients survs) 0,
    sortedRecipients_sorted survs, mem_sortedRecipients survs, ?_⟩
  intro r
  rw [auditRecordsOf_notifyAll cfg f salts (buildNames pcrows) (ctypeOf survs) shuffled r
    (sortedRecipients survs) 0 (sortedRecipients_nodup survs)]
  by_cases hr : r ∈ sortedRecipients survs
  · rw [if_pos hr, ← pairsOf_map_fst]
    exact (hshuf r).map Prod.fst
  · rw [if_neg hr,
      conflictsOf_eq_nil survs r (fun hex => hr ((mem_sortedRecipients survs r).mpr hex))]
    exact List.Perm.refl _

/-- C8 witness: the sample run's message events list exactly the sorted
recipient set, and `a@u.edu`'s audit records are a permutation of the
papers of their surviving conflicts. -/
theorem c8_sorted_recipients_permuted_lines_witness :
    recipientsOf (notifyAll sampleConfig sampleHash sampleSalts (buildNames [])
        (ctypeOf [sampleSurv]) sampleShuffle (sortedRecipients [sampleSurv]) 0)
      = sortedRecipients [sampleSurv]
    ∧ (auditRecordsOf (notifyAll sampleConfig sampleHash sampleSalts (buildNames [])
        (ctypeOf [sampleSurv]) sampleShuffle (sortedRecipients [sampleSurv]) 0)
        "a@u.edu").Perm ((conflictsOf [sampleSurv] "a@u.edu").map (fun s => s.paper)) :=
  ⟨(c8_sorted_recipients_permuted_lines sampleConfig sampleHash sampleSalts [] sampleAuthors
      sampleConflicts sampleShuffle [sampleSurv] _ (by decide) rfl sampleShuffle_perm).1,
    (c8_sorted_recipients_permuted_lines sampleConfig sampleHash sampleSalts [] sampleAuthors
      sampleConflicts sampleShuffle [sampleSurv] _ (by decide) rfl sampleShuffle_perm).2.2.2
      "a@u.edu"⟩

end ConflictVetter
